import Mathlib

/-!
Verification of the node-based dataflow engine described by the repository's
specification and exercised by the REINVENT docking notebook
(docs/reinvent.ipynb).  The repository itself ships only the notebook (a
client of the engine) and a lint CI job; the engine is consumed from the
maize package.  Components of the engine are therefore modelled from the
specification's words, while everything the notebook itself fixes (the node
set, the connection sequence, the parameter bindings, the lifecycle order,
the TagSorter predicate strings, and the observed success of all notebook
cells) is transcribed from the notebook source.
-/

namespace MaizeSpec

/-! ## Router (sort-by-predicate) -/

/-- Modelled from the spec: the Router is absent from the repository, only its
notebook usage is present.  The spec says each item is routed to the output
corresponding to the first predicate it satisfies.  `route` returns the index
of the first predicate in list order that the item satisfies, or `none`. -/
def route {α : Type u} (preds : List (α → Bool)) (x : α) : Option Nat :=
  match preds with
  | [] => none
  | p :: ps => if p x then some 0 else (route ps x).map (· + 1)

/-- Modelled from the spec: one Router delivery step.  The first component is
the list of output channels (each receiving the items delivered to it), the
second the list of recorded soft warnings (items that matched no predicate are
dropped with a warning, not raised as a fatal error: the step is a total
function and never fails). -/
def routerStep {α : Type u} (preds : List (α → Bool)) (x : α) :
    List (List α) × List α :=
  match route preds x with
  | some i => ((List.range preds.length).map (fun j => if j = i then [x] else []), [])
  | none => (preds.map (fun _ => []), [x])

/-! ## TagSorter predicates of the notebook -/

/-- Comparison operators appearing in the notebook's TagSorter predicate
strings: the item tag is compared against a numeric threshold. -/
inductive TagCmp
  | lt
  | ge
deriving DecidableEq

/-- A parsed TagSorter predicate such as the notebook's two sorter entries. -/
structure TagPred where
  tag : String
  cmp : TagCmp
  thr : ℚ

/-- Modelled from the spec: a TagSorter predicate evaluates against the item's
tag map; an item without the tag satisfies no comparison.  Numeric tag values
are modelled as rationals. -/
def evalTagPred (p : TagPred) (tags : List (String × ℚ)) : Bool :=
  match tags.lookup p.tag with
  | none => false
  | some v =>
    match p.cmp with
    | TagCmp.lt => decide (v < p.thr)
    | TagCmp.ge => decide (p.thr ≤ v)

/-- The notebook's TagSorter configuration, transcribed from
sort.sorter.set with entries rmsd less than 6.0 and rmsd at least 6.0. -/
def sorterPreds : List TagPred :=
  [⟨"rmsd", TagCmp.lt, 6⟩, ⟨"rmsd", TagCmp.ge, 6⟩]

/-! ## Tagging and sort-by-tag -/

/-- Modelled from the spec: TagIndex attaches the position in the incoming
sequence as a tag to each item; the tag is the first pair component. -/
def tagIndex {α : Type u} (s : List α) : List (ℕ × α) := s.enum

/-- Modelled from the spec: SortByTag buffers a whole batch and emits it
re-ordered by the earlier-assigned tag value. -/
def sortByTag {α : Type u} (l : List (ℕ × α)) : List (ℕ × α) :=
  l.insertionSort (fun a b => a.1 ≤ b.1)

instance tagLeTotal {α : Type u} : IsTotal (ℕ × α) (fun a b => a.1 ≤ b.1) :=
  ⟨fun a b => Nat.le_total a.1 b.1⟩

instance tagLeTrans {α : Type u} : IsTrans (ℕ × α) (fun a b => a.1 ≤ b.1) :=
  ⟨fun _ _ _ hab hbc => le_trans hab hbc⟩

instance tagLtAntisymm {α : Type u} : IsAntisymm (ℕ × α) (fun a b => a.1 < b.1) :=
  ⟨fun _ _ hab hba => absurd hba (lt_asymm hab)⟩

/-- Modelled from the spec: the Merger forwards items from independent inputs
in a non-deterministic interleaving.  `MergeInter l r m` states that `m` is
one possible interleaving of the two input streams `l` and `r`. -/
inductive MergeInter {β : Type u} : List β → List β → List β → Prop
  | nil : MergeInter [] [] []
  | left {x : β} {l r m : List β} : MergeInter l r m → MergeInter (x :: l) r (x :: m)
  | right {x : β} {l r m : List β} : MergeInter l r m → MergeInter l (x :: r) (x :: m)

/-! ## Run-in-a-loop execution contexts -/

/-- Modelled from the spec: one full round of a looping execution context is
possible only when every required input can deliver an item. -/
def allHave {ι : Type u} (ins : List (List ι)) : Bool :=
  ins.all (fun l => !l.isEmpty)

/-- Total number of pending input items, used as fuel for the loop runner. -/
def sumLen {ι : Type u} (ins : List (List ι)) : ℕ :=
  (ins.map List.length).sum

/-- Modelled from the spec: the fueled body of a run-in-a-loop execution
context.  Each required input is a finite stream whose end means the feeding
channel is closed.  Per round the context receives one item from each
required input, invokes the transform `f`, and sends the produced items; it
stops as soon as any required input reports closed.  The boolean result
component records that the context closed its outputs and exited. -/
def loopRunF {ι ο : Type u} [Inhabited ι] (f : List ι → List ο) :
    ℕ → List (List ι) → List ο × Bool
  | 0, _ => ([], false)
  | fuel + 1, ins =>
    if ins.isEmpty then ([], true)
    else if allHave ins then
      let rest := loopRunF f fuel (ins.map List.tail)
      (f (ins.map List.headI) ++ rest.1, rest.2)
    else ([], true)

/-- Modelled from the spec: a run-in-a-loop execution context, given enough
fuel for all pending input items. -/
def loopRun {ι ο : Type u} [Inhabited ι] (f : List ι → List ο)
    (ins : List (List ι)) : List ο × Bool :=
  loopRunF f (sumLen ins + 1) ins

/-! ## Graph validation -/

/-- A validation violation found by the engine's check pass. -/
inductive Violation
  | unboundParam (node param : String)
  | unconnectedInput (node port : String)
deriving DecidableEq

/-- Modelled from the spec: the per-node view the check pass traverses, with
the node's required parameters, the parameters actually bound, the required
input ports and the input ports actually connected. -/
structure VNode where
  name : String
  requiredParams : List String
  boundParams : List String
  requiredInputs : List String
  connectedInputs : List String
deriving DecidableEq

/-- The whole graph as seen by the check pass. -/
structure VGraph where
  nodes : List VNode
deriving DecidableEq

/-- All violations contributed by one node: its unbound required parameters
followed by its unconnected required input ports. -/
def nodeViolations (n : VNode) : List Violation :=
  (n.requiredParams.filter (fun p => !n.boundParams.contains p)).map
      (Violation.unboundParam n.name)
    ++ (n.requiredInputs.filter (fun p => !n.connectedInputs.contains p)).map
      (Violation.unconnectedInput n.name)

/-- Every violation in the graph, collected over all nodes. -/
def violations (g : VGraph) : List Violation :=
  (g.nodes.map nodeViolations).flatten

/-- The aggregated failure raised by the check pass. -/
structure ValidationError where
  found : List Violation
deriving DecidableEq

/-- Modelled from the spec: check traverses every node and reports, as a
single aggregated failure, every violation found; it must not mutate the
graph, so it is modelled as returning the graph it was given next to the
optional aggregated error. -/
def checkGraph (g : VGraph) : VGraph × Option ValidationError :=
  if violations g = [] then (g, none) else (g, some ⟨violations g⟩)

/-- A graph with two independent validation violations: node alpha has an
unbound required parameter and node beta has an unconnected required input
port. -/
def cSixGraph : VGraph :=
  ⟨[⟨"alpha", ["p"], [], [], []⟩, ⟨"beta", [], [], ["inp"], []⟩]⟩

/-! ## Graph construction: connect and connect_all -/

/-- A typed port on a named node.  The `multi` flag marks a multi-item input
such as the notebook's MergeLists input, which the notebook demonstrably
connects twice with both connections succeeding (the connect cell and check
cell run without error and the rendered topology shows both channels into
mergelists). -/
structure BPort where
  node : String
  port : String
  ty : String
  multi : Bool
deriving DecidableEq

/-- A graph under construction: registered node names plus the channels
created so far, each linking an output port to an input port. -/
structure BGraph where
  nodeNames : List String
  chans : List (BPort × BPort)
deriving DecidableEq

/-- Connection-time errors, in the order the spec lists them. -/
inductive ConnErr
  | typeMismatch
  | portAlreadyConnected
  | unknownPort
deriving DecidableEq

/-- Does the input port already have a channel attached? -/
def inputConnected (g : BGraph) (i : BPort) : Bool :=
  g.chans.any (fun c => c.2 == i)

/-- Modelled from the spec: connect fails with TypeMismatchError if declared
types differ, PortAlreadyConnectedError if the input port already has a
channel (except for a multi-input port, which the notebook shows accepts
several channels), UnknownPortError if either port does not belong to a
registered node; the checks are made in the order the spec lists them.  On
failure the graph is returned unchanged next to the error. -/
def connectPorts (g : BGraph) (o i : BPort) : BGraph × Option ConnErr :=
  if o.ty ≠ i.ty then (g, some ConnErr.typeMismatch)
  else if !i.multi && inputConnected g i then (g, some ConnErr.portAlreadyConnected)
  else if !(g.nodeNames.contains o.node) || !(g.nodeNames.contains i.node) then
    (g, some ConnErr.unknownPort)
  else ({ g with chans := g.chans ++ [(o, i)] }, none)

/-- Modelled from the spec: the bulk connect_all variant accepting a sequence
of (output, input) pairs, folding the single connect over the sequence and
keeping the first error. -/
def connectAll (g : BGraph) (ps : List (BPort × BPort)) : BGraph × Option ConnErr :=
  ps.foldl
    (fun s p =>
      match s with
      | (g', some e) => (g', some e)
      | (g', none) => connectPorts g' p.1 p.2)
    (g, none)

/-- Follows the spec's words for the refinement claim: repeated single
connect calls in sequence order, the first failure stopping the series. -/
def connectRepeated (g : BGraph) : List (BPort × BPort) → BGraph × Option ConnErr
  | [] => (g, none)
  | p :: ps =>
    match connectPorts g p.1 p.2 with
    | (g', none) => connectRepeated g' ps
    | (g', some e) => (g', some e)

/-! ## The notebook's ports and connection sequence -/

def tyStr : String := "list[str]"
def tyLIC : String := "list[IsomerCollection]"
def tyArr : String := "ndarray[Any, dtype[float32]]"
def tyIso : String := "Isomer"

def rnveOut : BPort := ⟨"reinvent", "out", tyStr, false⟩
def rnveInp : BPort := ⟨"reinvent", "inp", tyArr, false⟩
def embeInp : BPort := ⟨"gypsum", "inp", tyStr, false⟩
def embeOut : BPort := ⟨"gypsum", "out", tyLIC, false⟩
def indxInp : BPort := ⟨"tagindex", "inp", tyLIC, false⟩
def indxOut : BPort := ⟨"tagindex", "out", tyLIC, false⟩
def dockInp : BPort := ⟨"autodockgpu", "inp", tyLIC, false⟩
def dockOut : BPort := ⟨"autodockgpu", "out", tyLIC, false⟩
def dockOutScores : BPort := ⟨"autodockgpu", "out_scores", tyArr, false⟩
def voidInp : BPort := ⟨"void", "inp", tyArr, false⟩
def loadOut : BPort := ⟨"loadmolecule", "out", tyIso, false⟩
def rmsdInp : BPort := ⟨"rmsd", "inp", tyLIC, false⟩
def rmsdInpRef : BPort := ⟨"rmsd", "inp_ref", tyIso, false⟩
def rmsdOut : BPort := ⟨"rmsd", "out", tyLIC, false⟩
def logtInp : BPort := ⟨"logtags", "inp", tyLIC, false⟩
def logtOut : BPort := ⟨"logtags", "out", tyLIC, false⟩
def sortInp : BPort := ⟨"tagsorter", "inp", tyLIC, false⟩
def sortOut : BPort := ⟨"tagsorter", "out", tyLIC, false⟩
def mergInp : BPort := ⟨"mergelists", "inp", tyLIC, true⟩
def mergOut : BPort := ⟨"mergelists", "out", tyLIC, false⟩
def dockHpInp : BPort := ⟨"dock-hp", "inp", tyLIC, false⟩
def dockHpOut : BPort := ⟨"dock-hp", "out", tyLIC, false⟩
def dockHpOutScores : BPort := ⟨"dock-hp", "out_scores", tyArr, false⟩
def voidHpInp : BPort := ⟨"void-hp", "inp", tyArr, false⟩
def sortIdInp : BPort := ⟨"sortbytag", "inp", tyLIC, false⟩
def sortIdOut : BPort := ⟨"sortbytag", "out", tyLIC, false⟩
def scorInp : BPort := ⟨"extractscores", "inp", tyLIC, false⟩
def scorOut : BPort := ⟨"extractscores", "out", tyArr, false⟩

/-- The fourteen nodes the notebook adds, with no channels yet. -/
def noteStart : BGraph :=
  ⟨["reinvent", "gypsum", "tagindex", "autodockgpu", "void", "loadmolecule",
    "rmsd", "logtags", "tagsorter", "dock-hp", "void-hp", "mergelists",
    "sortbytag", "extractscores"], []⟩

/-- The fifteen (output, input) pairs of the notebook's three connect_all
calls, in source order. -/
def noteConnSeq : List (BPort × BPort) :=
  [(rnveOut, embeInp), (embeOut, indxInp), (indxOut, dockInp),
   (dockOutScores, voidInp), (dockOut, rmsdInp), (loadOut, rmsdInpRef),
   (rmsdOut, logtInp), (logtOut, sortInp), (sortOut, mergInp),
   (sortOut, dockHpInp), (dockHpOutScores, voidHpInp), (dockHpOut, mergInp),
   (mergOut, sortIdInp), (sortIdOut, scorInp), (scorOut, rnveInp)]

/-- The graph right before the notebook's second connection into the merge
node's input port: the first eleven pairs are already connected. -/
def noteBeforeSecondMerge : BGraph :=
  (connectAll noteStart (noteConnSeq.take 11)).1

/-! ## Termination model -/

/-- Modelled from the spec: the execution-level view of a graph for the
termination analysis.  Nodes are numbered below `numNodes`; `edges` holds
the channels as (producer, consumer) pairs; `selfTerm` lists the nodes whose
execution context is self-terminating after an internally bounded number of
iterations (a run-once node, or a looping node with an iteration budget such
as the notebook's ReInvent node with max_epoch).  Every other node runs in a
loop until a required input reports closed. -/
structure EGraph where
  numNodes : ℕ
  edges : List (ℕ × ℕ)
  selfTerm : List ℕ
deriving DecidableEq

/-- Does node `n` have an incoming channel? -/
def hasPred (g : EGraph) (n : ℕ) : Bool :=
  g.edges.any (fun e => e.2 == n)

/-- Modelled from the spec: the part of the check pass the termination claim
relies on.  All channel endpoints are registered nodes, and every node that
is not self-terminating has at least one connected input (a looping node
with no input could never be told to stop, and the spec makes source loop
nodes self-terminating while check rejects unconnected required inputs). -/
def checkE (g : EGraph) : Bool :=
  g.edges.all (fun e => decide (e.1 < g.numNodes) && decide (e.2 < g.numNodes))
    && (List.range g.numNodes).all (fun n => g.selfTerm.contains n || hasPred g n)

/-- Modelled from the spec: the execution context of node `n` eventually
closes its outputs and exits, under every schedule.  A self-terminating node
exits after its bounded iteration count.  Any other looping node exits only
once a required input reports closed without the context first blocking
forever on another still-open input, which under adversarial receive order
requires every producer feeding it to exit. -/
inductive Exits (g : EGraph) : ℕ → Prop
  | bounded {n : ℕ} : n ∈ g.selfTerm → Exits g n
  | upstream {n : ℕ} : (∃ m, (m, n) ∈ g.edges) →
      (∀ m, (m, n) ∈ g.edges → Exits g m) → Exits g n

/-- Modelled from the spec: execute returns exactly when every node's
execution context has exited. -/
def Terminates (g : EGraph) : Prop :=
  ∀ n, n < g.numNodes → Exits g n

/-- A cycle in the graph: a nonempty list of nodes with a channel between
each consecutive pair and a channel from the last node back to the first. -/
def IsCycle (g : EGraph) (c : List ℕ) : Prop :=
  match c with
  | [] => False
  | a :: l =>
    List.Chain (fun x y => (x, y) ∈ g.edges) a l
      ∧ ((a :: l).getLast (List.cons_ne_nil a l), a) ∈ g.edges

/-- Every cycle of the graph passes through a self-terminating node. -/
def EveryCycleBounded (g : EGraph) : Prop :=
  ∀ c, IsCycle g c → ∃ n, n ∈ c ∧ n ∈ g.selfTerm

/-- One round of the executable least-fixed-point computation of the exiting
nodes: a node joins once it has a predecessor and all predecessors joined. -/
def exitsStep (g : EGraph) (s : List ℕ) : List ℕ :=
  s ++ (List.range g.numNodes).filter
    (fun n => !s.contains n && hasPred g n
      && (g.edges.filter (fun e => e.2 == n)).all (fun e => s.contains e.1))

/-- Iterating the exit computation from the self-terminating nodes. -/
def exitsIter (g : EGraph) : ℕ → List ℕ
  | 0 => g.selfTerm
  | k + 1 => exitsStep g (exitsIter g k)

/-- The notebook's workflow graph for the termination analysis.  Node
numbering follows the add order: 0 reinvent, 1 gypsum, 2 tagindex,
3 autodockgpu, 4 void, 5 loadmolecule, 6 rmsd, 7 logtags, 8 tagsorter,
9 dock-hp, 10 void-hp, 11 mergelists, 12 sortbytag, 13 extractscores.
Edges follow the three connect_all calls.  Self-terminating nodes are the
run-once nodes (void, loadmolecule, mergelists, added without the loop flag)
and reinvent, whose iteration count is internally bounded by the notebook's
max_epoch parameter of 10. -/
def noteEGraph : EGraph :=
  ⟨14,
   [(0, 1), (1, 2), (2, 3), (3, 4), (3, 6), (5, 6), (6, 7), (7, 8), (8, 11),
    (8, 9), (9, 10), (9, 11), (11, 12), (12, 13), (13, 0)],
   [0, 4, 5, 11]⟩

/-- The notebook's feedback cycle quoted by the specification: reinvent,
gypsum, tagindex, autodockgpu, rmsd, logtags, tagsorter, mergelists,
sortbytag, extractscores, and back to reinvent. -/
def noteCycle : List ℕ := [0, 1, 2, 3, 6, 7, 8, 11, 12, 13]

/-! ## The notebook's lifecycle of engine calls -/

/-- The graph-mutating and graph-driving calls the notebook makes. -/
inductive NEvent
  | addNode (name : String)
  | connectCall (srcNode dstNode : String)
  | setParam (node param : String)
  | checkCall
  | executeCall
deriving DecidableEq

/-- The lifecycle phase of an engine call: construction (adds and connects),
parameter binding, validation, execution. -/
def phase : NEvent → ℕ
  | NEvent.addNode _ => 0
  | NEvent.connectCall _ _ => 0
  | NEvent.setParam _ _ => 1
  | NEvent.checkCall => 2
  | NEvent.executeCall => 3

/-- Is a list of naturals non-decreasing? -/
def nondecreasing : List ℕ → Bool
  | [] => true
  | [_] => true
  | a :: b :: t => decide (a ≤ b) && nondecreasing (b :: t)

/-- Every engine call of the notebook in source cell order: the fourteen adds
of cell three, the fifteen connections of cell four, the nineteen parameter
bindings of the parameter cell, the single check call, and the single
execute call. -/
def notebookEvents : List NEvent :=
  [NEvent.addNode "reinvent", NEvent.addNode "gypsum", NEvent.addNode "tagindex",
   NEvent.addNode "autodockgpu", NEvent.addNode "void", NEvent.addNode "loadmolecule",
   NEvent.addNode "rmsd", NEvent.addNode "logtags", NEvent.addNode "tagsorter",
   NEvent.addNode "dock-hp", NEvent.addNode "void-hp", NEvent.addNode "mergelists",
   NEvent.addNode "sortbytag", NEvent.addNode "extractscores",
   NEvent.connectCall "reinvent" "gypsum", NEvent.connectCall "gypsum" "tagindex",
   NEvent.connectCall "tagindex" "autodockgpu", NEvent.connectCall "autodockgpu" "void",
   NEvent.connectCall "autodockgpu" "rmsd", NEvent.connectCall "loadmolecule" "rmsd",
   NEvent.connectCall "rmsd" "logtags", NEvent.connectCall "logtags" "tagsorter",
   NEvent.connectCall "tagsorter" "mergelists", NEvent.connectCall "tagsorter" "dock-hp",
   NEvent.connectCall "dock-hp" "void-hp", NEvent.connectCall "dock-hp" "mergelists",
   NEvent.connectCall "mergelists" "sortbytag", NEvent.connectCall "sortbytag" "extractscores",
   NEvent.connectCall "extractscores" "reinvent",
   NEvent.setParam "reinvent" "configuration", NEvent.setParam "reinvent" "prior",
   NEvent.setParam "reinvent" "agent", NEvent.setParam "reinvent" "max_epoch",
   NEvent.setParam "reinvent" "low", NEvent.setParam "reinvent" "high",
   NEvent.setParam "reinvent" "reverse", NEvent.setParam "reinvent" "batch_size",
   NEvent.setParam "gypsum" "n_variants", NEvent.setParam "autodockgpu" "inp_grid",
   NEvent.setParam "dock-hp" "inp_grid", NEvent.setParam "loadmolecule" "path",
   NEvent.setParam "logtags" "tag", NEvent.setParam "tagsorter" "sorter",
   NEvent.setParam "dock-hp" "nrun", NEvent.setParam "dock-hp" "population_size",
   NEvent.setParam "dock-hp" "lsit", NEvent.setParam "autodockgpu" "constraints",
   NEvent.setParam "dock-hp" "constraints",
   NEvent.checkCall,
   NEvent.executeCall]

/-! ## Helper lemmas -/

theorem route_some_spec {α : Type u} (preds : List (α → Bool)) (x : α) (i : ℕ)
    (h : route preds x = some i) :
    ∃ pre p suf, preds = pre ++ p :: suf ∧ pre.length = i
      ∧ (∀ q ∈ pre, q x = false) ∧ p x = true := by
  induction preds generalizing i with
  | nil => simp [route] at h
  | cons p ps ih =>
    by_cases hp : p x
    · have h0 : i = 0 := by
        simp [route, hp] at h
        omega
      subst h0
      exact ⟨[], p, ps, rfl, rfl, by simp, hp⟩
    · simp [route, hp, Option.map_eq_some'] at h
      obtain ⟨j, hj, rfl⟩ := h
      obtain ⟨pre, q, suf, hps, hlen, hall, hq⟩ := ih j hj
      refine ⟨p :: pre, q, suf, by simp [hps], by simp [hlen], ?_, hq⟩
      intro r hr
      rcases List.mem_cons.mp hr with rfl | hr
      · simpa using hp
      · exact hall r hr

theorem route_none_iff {α : Type u} (preds : List (α → Bool)) (x : α) :
    route preds x = none ↔ ∀ p ∈ preds, p x = false := by
  induction preds with
  | nil => simp [route]
  | cons p ps ih =>
    by_cases hp : p x
    · simp [route, hp]
    · simp [route, hp, ih]

theorem sumLen_tail {ι : Type u} (ins : List (List ι)) (h : allHave ins = true) :
    sumLen (ins.map List.tail) + ins.length = sumLen ins := by
  induction ins with
  | nil => rfl
  | cons l t ih =>
    simp only [allHave, List.all_cons, Bool.and_eq_true] at h
    have hl : l ≠ [] := by
      simpa using h.1
    have ht := ih (by simpa [allHave] using h.2)
    have hlen : l.length = l.tail.length + 1 := by
      cases l with
      | nil => exact absurd rfl hl
      | cons a t' => simp
    have e1 : sumLen ((l :: t).map List.tail)
        = l.tail.length + sumLen (t.map List.tail) := by
      simp [sumLen]
    have e2 : sumLen (l :: t) = l.length + sumLen t := by
      simp [sumLen]
    rw [e1, e2, List.length_cons]
    omega

theorem one_le_sumLen {ι : Type u} (ins : List (List ι)) (_hne : ins ≠ [])
    (h : allHave ins = true) : ins.length ≤ sumLen ins := by
  have := sumLen_tail ins h
  omega

theorem loopRunF_fuel {ι ο : Type u} [Inhabited ι] (f : List ι → List ο) :
    ∀ (fuel₁ fuel₂ : ℕ) (ins : List (List ι)), sumLen ins < fuel₁ → sumLen ins < fuel₂ →
      loopRunF f fuel₁ ins = loopRunF f fuel₂ ins := by
  intro fuel₁
  induction fuel₁ with
  | zero => intro fuel₂ ins h1 _; omega
  | succ k ih =>
    intro fuel₂ ins h1 h2
    cases fuel₂ with
    | zero => omega
    | succ k₂ =>
      by_cases he : ins.isEmpty
      · simp [loopRunF, he]
      · by_cases hall : allHave ins
        · have hne : ins ≠ [] := by
            simpa [List.isEmpty_iff] using he
          have hlen : 1 ≤ ins.length := by
            cases ins with
            | nil => exact absurd rfl hne
            | cons _ _ => simp
          have hsum := sumLen_tail ins hall
          have htail₁ : sumLen (ins.map List.tail) < k := by omega
          have htail₂ : sumLen (ins.map List.tail) < k₂ := by omega
          simp only [loopRunF, he, hall, if_false, if_true, Bool.false_eq_true]
          rw [ih k₂ (ins.map List.tail) htail₁ htail₂]
        · simp [loopRunF, he, hall]

theorem loopRun_stop {ι ο : Type u} [Inhabited ι] (f : List ι → List ο)
    (ins : List (List ι)) (h : ins.isEmpty = true ∨ allHave ins = false) :
    loopRun f ins = ([], true) := by
  rcases h with h | h <;> simp [loopRun, loopRunF, h]

theorem loopRun_step {ι ο : Type u} [Inhabited ι] (f : List ι → List ο)
    (ins : List (List ι)) (hne : ins.isEmpty = false) (hall : allHave ins = true) :
    loopRun f ins
      = (f (ins.map List.headI) ++ (loopRun f (ins.map List.tail)).1,
         (loopRun f (ins.map List.tail)).2) := by
  have hne' : ins ≠ [] := by
    simpa [List.isEmpty_iff] using hne
  have hlen : 1 ≤ ins.length := by
    cases ins with
    | nil => exact absurd rfl hne'
    | cons _ _ => simp
  have hsum := sumLen_tail ins hall
  have hfuel : loopRunF f (sumLen ins) (ins.map List.tail)
      = loopRunF f (sumLen (ins.map List.tail) + 1) (ins.map List.tail) := by
    exact loopRunF_fuel f _ _ _ (by omega) (by omega)
  have hmain : loopRunF f (sumLen ins + 1) ins
      = (f (ins.map List.headI) ++ (loopRunF f (sumLen ins) (ins.map List.tail)).1,
         (loopRunF f (sumLen ins) (ins.map List.tail)).2) := by
    simp [loopRunF, hne, hall]
  rw [loopRun, hmain, hfuel]
  rfl

theorem loopRun_exits {ι ο : Type u} [Inhabited ι] (f : List ι → List ο) :
    ∀ (n : ℕ) (ins : List (List ι)), sumLen ins ≤ n → (loopRun f ins).2 = true := by
  intro n
  induction n with
  | zero =>
    intro ins h
    rcases he : ins.isEmpty with _ | _
    · rcases hall : allHave ins with _ | _
      · rw [loopRun_stop f ins (Or.inr hall)]
      · have hne : ins ≠ [] := by
          simpa [List.isEmpty_iff] using he
        have := one_le_sumLen ins hne hall
        have hlen : 1 ≤ ins.length := by
          cases ins with
          | nil => exact absurd rfl hne
          | cons _ _ => simp
        omega
    · rw [loopRun_stop f ins (Or.inl he)]
  | succ k ih =>
    intro ins h
    rcases he : ins.isEmpty with _ | _
    · rcases hall : allHave ins with _ | _
      · rw [loopRun_stop f ins (Or.inr hall)]
      · have hne : ins ≠ [] := by
          simpa [List.isEmpty_iff] using he
        have hlen : 1 ≤ ins.length := by
          cases ins with
          | nil => exact absurd rfl hne
          | cons _ _ => simp
        have hsum := sumLen_tail ins hall
        rw [loopRun_step f ins he hall]
        exact ih (ins.map List.tail) (by omega)
    · rw [loopRun_stop f ins (Or.inl he)]

theorem mergeInter_perm {β : Type u} {l r m : List β} (h : MergeInter l r m) :
    m.Perm (l ++ r) := by
  induction h with
  | nil => rfl
  | left _ ih => exact ih.cons _
  | right _ ih => exact (ih.cons _).trans List.perm_middle.symm

theorem sortByTag_of_perm_enum {α : Type u} (s : List α) (m : List (ℕ × α))
    (hm : m.Perm (tagIndex s)) : sortByTag m = tagIndex s := by
  have hperm : (sortByTag m).Perm (tagIndex s) :=
    (List.perm_insertionSort _ m).trans hm
  have hkeys : ((sortByTag m).map Prod.fst).Nodup := by
    have henum : ((tagIndex s).map Prod.fst).Nodup := by
      rw [tagIndex, List.enum_map_fst]
      exact List.nodup_range _
    exact (hperm.map Prod.fst).nodup_iff.mpr henum
  have hle : List.Sorted (fun a b : ℕ × α => a.1 ≤ b.1) (sortByTag m) :=
    List.sorted_insertionSort _ m
  have hne : List.Pairwise (fun a b : ℕ × α => a.1 ≠ b.1) (sortByTag m) :=
    List.pairwise_map.mp hkeys
  have hlt : List.Sorted (fun a b : ℕ × α => a.1 < b.1) (sortByTag m) :=
    (hle.and hne).imp fun hab => lt_of_le_of_ne hab.1 hab.2
  have henumlt : List.Sorted (fun a b : ℕ × α => a.1 < b.1) (tagIndex s) := by
    have hr := List.pairwise_lt_range s.length
    rw [← List.enum_map_fst s] at hr
    exact List.pairwise_map.mp hr
  exact List.eq_of_perm_of_sorted hperm hlt henumlt

/-! ## Claims -/

/-- C2: tagging a sequence with its positions, splitting the tagged items
across two branches by an arbitrary routing predicate, merging the branches
under any interleaving, and sorting the merged stream by the position tag
reconstructs exactly the original sequence. -/
theorem c2_tag_sort_roundtrip :
    ∀ (α : Type) (s : List α) (keep : ℕ × α → Bool) (m : List (ℕ × α)),
      MergeInter ((tagIndex s).filter keep) ((tagIndex s).filter (fun a => !keep a)) m →
      sortByTag m = tagIndex s ∧ (sortByTag m).map Prod.snd = s := by
  intro α s keep m hm
  have hperm : m.Perm (tagIndex s) :=
    (mergeInter_perm hm).trans (List.filter_append_perm keep (tagIndex s))
  have heq := sortByTag_of_perm_enum s m hperm
  refine ⟨heq, ?_⟩
  rw [heq, tagIndex, List.enum_map_snd]

/-- Witness for C2: the five-item sequence of the spec scenario, routed by
the even-index predicate into two streams and merged in a latency-style
interleaving, is restored exactly by the sort-by-tag step. -/
theorem c2_tag_sort_roundtrip_witness :
    MergeInter ((tagIndex [10, 20, 30, 40, 50]).filter (fun a => a.1 % 2 == 0))
        ((tagIndex [10, 20, 30, 40, 50]).filter (fun a => !(a.1 % 2 == 0)))
        [(1, 20), (0, 10), (3, 40), (2, 30), (4, 50)]
      ∧ sortByTag [(1, 20), (0, 10), (3, 40), (2, 30), (4, 50)]
          = tagIndex [10, 20, 30, 40, 50]
      ∧ (sortByTag [(1, 20), (0, 10), (3, 40), (2, 30), (4, 50)]).map Prod.snd
          = [10, 20, 30, 40, 50] := by
  have hm : MergeInter ((tagIndex [10, 20, 30, 40, 50]).filter (fun a => a.1 % 2 == 0))
      ((tagIndex [10, 20, 30, 40, 50]).filter (fun a => !(a.1 % 2 == 0)))
      [(1, 20), (0, 10), (3, 40), (2, 30), (4, 50)] := by
    show MergeInter [(0, 10), (2, 30), (4, 50)] [(1, 20), (3, 40)]
      [(1, 20), (0, 10), (3, 40), (2, 30), (4, 50)]
    exact MergeInter.right (MergeInter.left (MergeInter.right
      (MergeInter.left (MergeInter.left MergeInter.nil))))
  exact ⟨hm, (c2_tag_sort_roundtrip ℕ _ _ _ hm).1, (c2_tag_sort_roundtrip ℕ _ _ _ hm).2⟩

/-- C5: a run-in-a-loop execution context repeats the cycle of receiving one
item from each required input, invoking the transform, and sending the
produced items; it stops, closing its outputs and exiting with no further
transform, as soon as any required input reports closed; in particular a
loop node like the notebook's rmsd whose required reference input is fed by
the run-once load node performs exactly one transform per item of that
reference stream. -/
theorem c5_loop_semantics :
    ∀ (ι ο : Type) [Inhabited ι] (f : List ι → List ο) (ins : List (List ι)),
      ((∃ l ∈ ins, l = []) → loopRun f ins = ([], true))
        ∧ ((ins ≠ [] ∧ ∀ l ∈ ins, l ≠ []) →
            (loopRun f ins).1
              = f (ins.map List.headI) ++ (loopRun f (ins.map List.tail)).1)
        ∧ (loopRun f ins).2 = true
        ∧ (∀ (x r : ι) (xs : List ι), loopRun f [x :: xs, [r]] = (f [x, r], true)) := by
  intro ι ο inst f ins
  refine ⟨?_, ?_, loopRun_exits f (sumLen ins) ins le_rfl, ?_⟩
  · intro hsome
    refine loopRun_stop f ins (Or.inr ?_)
    obtain ⟨l, hl, rfl⟩ := hsome
    have hna : ¬ (allHave ins = true) := by
      simp only [allHave, List.all_eq_true]
      intro hcontra
      have := hcontra [] hl
      simp at this
    exact Bool.eq_false_iff.mpr hna
  · intro hall
    have he : ins.isEmpty = false := by
      simpa [List.isEmpty_iff] using hall.1
    have ha : allHave ins = true := by
      simp only [allHave, List.all_eq_true]
      intro l hl
      simpa using hall.2 l hl
    rw [loopRun_step f ins he ha]
  · intro x r xs
    have hstep := loopRun_step f [x :: xs, [r]] (by simp) (by simp [allHave])
    have hstop : loopRun f [xs, ([] : List ι)] = ([], true) :=
      loopRun_stop f _ (Or.inr (by simp [allHave]))
    simp only [List.map_cons, List.map_nil, List.headI, List.tail] at hstep
    rw [hstep, hstop]
    simp

/-- Witness for C5 with the summing transform: a closed input stops the loop
with no transform; with both inputs ready one round runs; and with a
single-item reference stream exactly one transform happens. -/
theorem c5_loop_semantics_witness :
    loopRun (fun l => [l.sum]) [[1], ([] : List ℕ)] = ([], true)
      ∧ (loopRun (fun l => [l.sum]) [[1, 2], [5]]).1
          = (fun l => [l.sum]) [1, 5]
            ++ (loopRun (fun l => [l.sum]) [[2], ([] : List ℕ)]).1
      ∧ loopRun (fun l => [l.sum]) [[1, 2], [5]] = ([6], true) := by
  refine ⟨(@c5_loop_semantics ℕ ℕ ⟨0⟩ (fun l => [l.sum]) [[1], []]).1 (by decide), ?_, ?_⟩
  · have h := (@c5_loop_semantics ℕ ℕ ⟨0⟩ (fun l => [l.sum]) [[1, 2], [5]]).2.1
      ⟨by simp, by decide⟩
    simpa using h
  · have h := (@c5_loop_semantics ℕ ℕ ⟨0⟩ (fun l => [l.sum]) [[1, 2], [5]]).2.2.2 1 5 [2]
    simpa using h

/-- C3: every item entering a Router with an ordered predicate list is
delivered to at most one output channel, namely the output of the first
predicate in list order it satisfies (with predicates p1 and p2 an item
satisfying both goes only to p1's output); an item satisfying no predicate
is delivered to no output and the drop is recorded as a soft warning, the
step being a total function rather than a fatal error. -/
theorem c3_router_first_match :
    ∀ (α : Type) (preds : List (α → Bool)) (x : α),
      (routerStep preds x).1.countP (fun l => !l.isEmpty) ≤ 1
        ∧ (∀ i, route preds x = some i →
            ∃ (pre : List (α → Bool)) (p : α → Bool) (suf : List (α → Bool)),
              preds = pre ++ p :: suf ∧ pre.length = i
                ∧ (∀ q ∈ pre, q x = false) ∧ p x = true)
        ∧ (∀ p1 p2 : α → Bool, p1 x = true →
            routerStep [p1, p2] x = ([[x], []], []))
        ∧ ((∀ p ∈ preds, p x = false) →
            (routerStep preds x).1 = preds.map (fun _ => []) ∧ (routerStep preds x).2 = [x]) := by
  intro α preds x
  refine ⟨?_, fun i h => route_some_spec preds x i h, ?_, ?_⟩
  · cases h : route preds x with
    | none =>
      have h0 : List.countP (fun l => !l.isEmpty)
          (List.replicate preds.length ([] : List α)) = 0 := by
        refine List.countP_eq_zero.mpr ?_
        intro l hl
        rw [List.eq_of_mem_replicate hl]
        simp
      simp [routerStep, h, h0]
    | some i =>
      simp only [routerStep, h, List.countP_map]
      have hcong : ∀ j ∈ List.range preds.length,
          (((fun l => !l.isEmpty) ∘ fun j => if j = i then [x] else []) j = true
            ↔ (fun j => decide (j = i)) j = true) := by
        intro j _
        by_cases hj : j = i <;> simp [hj]
      rw [List.countP_congr hcong]
      have : (List.range preds.length).countP (fun j => decide (j = i))
          = (List.range preds.length).count i := by
        simp [List.count]
        rfl
      rw [this]
      exact List.nodup_iff_count_le_one.mp (List.nodup_range _) i
  · intro p1 p2 h1
    simp [routerStep, route, h1, List.range_succ]
  · intro hall
    have h : route preds x = none := (route_none_iff preds x).mpr hall
    simp [routerStep, h]

/-- Witness for C3 at concrete inputs: the even-number predicate pair on the
item 4 (which satisfies both predicates and goes only to the first output),
and the same predicates on 3 with a never-true second predicate list showing
the recorded-drop branch. -/
theorem c3_router_first_match_witness :
    (routerStep [fun n => decide (n % 2 = 0), fun n => decide (0 ≤ n)] (4 : ℕ)).1.countP
        (fun l => !l.isEmpty) ≤ 1
      ∧ routerStep [fun n => decide (n % 2 = 0), fun n => decide (0 ≤ n)] (4 : ℕ)
          = ([[4], []], [])
      ∧ (routerStep [fun n => decide (n % 2 = 0)] (3 : ℕ)).1 = [[]]
      ∧ (routerStep [fun n => decide (n % 2 = 0)] (3 : ℕ)).2 = [3] := by
  refine ⟨(c3_router_first_match ℕ [fun n => decide (n % 2 = 0), fun n => decide (0 ≤ n)] 4).1,
    (c3_router_first_match ℕ [fun n => decide (n % 2 = 0), fun n => decide (0 ≤ n)] 4).2.2.1
      (fun n => decide (n % 2 = 0)) (fun n => decide (0 ≤ n)) (by decide), ?_, ?_⟩
  · have h := (c3_router_first_match ℕ [fun n => decide (n % 2 = 0)] 3).2.2.2 (by decide)
    simpa using h.1
  · exact ((c3_router_first_match ℕ [fun n => decide (n % 2 = 0)] 3).2.2.2 (by decide)).2

theorem foldl_conn_err (ps : List (BPort × BPort)) (g : BGraph) (e : ConnErr) :
    ps.foldl
      (fun s p =>
        match s with
        | (g', some e') => (g', some e')
        | (g', none) => connectPorts g' p.1 p.2)
      ((g, some e) : BGraph × Option ConnErr) = (g, some e) := by
  induction ps with
  | nil => rfl
  | cons p ps ih => simpa using ih

/-- C7: connecting two ports whose declared types differ fails with
TypeMismatchError and leaves the graph in exactly its prior state. -/
theorem c7_type_mismatch_unchanged :
    ∀ (g : BGraph) (o i : BPort), o.ty ≠ i.ty →
      connectPorts g o i = (g, some ConnErr.typeMismatch) := by
  intro g o i h
  simp [connectPorts, h]

/-- Witness for C7: connecting the reinvent output (a SMILES list port)
straight into the reinvent input (a score-array port) fails with the type
mismatch error and returns the starting graph untouched. -/
theorem c7_type_mismatch_unchanged_witness :
    connectPorts noteStart rnveOut rnveInp = (noteStart, some ConnErr.typeMismatch) :=
  c7_type_mismatch_unchanged noteStart rnveOut rnveInp (by decide)

/-- C8: the bulk connect_all call on a sequence of (output, input) pairs
produces exactly the same resulting graph and error behaviour as calling the
single connect once per pair in the same order. -/
theorem c8_connect_all_refines :
    ∀ (ps : List (BPort × BPort)) (g : BGraph),
      connectAll g ps = connectRepeated g ps := by
  intro ps
  induction ps with
  | nil => intro g; rfl
  | cons p ps ih =>
    intro g
    rw [connectAll, List.foldl_cons]
    rcases h : connectPorts g p.1 p.2 with ⟨g', err⟩
    cases err with
    | none =>
      have hl : (match ((g, none) : BGraph × Option ConnErr) with
          | (g', some e') => (g', some e')
          | (g', none) => connectPorts g' p.1 p.2) = (g', none) := by
        simpa using h
      rw [hl]
      have hr : connectRepeated g (p :: ps) = connectRepeated g' ps := by
        simp [connectRepeated, h]
      rw [hr]
      exact ih g'
    | some e =>
      have hl : (match ((g, none) : BGraph × Option ConnErr) with
          | (g', some e') => (g', some e')
          | (g', none) => connectPorts g' p.1 p.2) = (g', some e) := by
        simpa using h
      rw [hl, foldl_conn_err]
      simp [connectRepeated, h]

/-- C4 counterexample: right before the notebook's second connection into the
merge node's input port, that input already has a channel attached, yet the
connect call does not fail with PortAlreadyConnectedError: it succeeds,
exactly as the notebook's connect cell, check cell, and rendered topology
(with both channels into mergelists) show, because MergeLists exposes a
multi-item input. -/
theorem c4_counterexample :
    inputConnected noteBeforeSecondMerge mergInp = true
      ∧ (connectPorts noteBeforeSecondMerge dockHpOut mergInp).2
          ≠ some ConnErr.portAlreadyConnected
      ∧ (connectPorts noteBeforeSecondMerge dockHpOut mergInp).2 = none := by
  decide

/-- C4 amended: a connect call whose input port is a plain single-channel
input that already has a channel attached, and whose declared types match,
fails with PortAlreadyConnectedError and leaves the graph unchanged; the
notebook's second connection to the merge node's multi-item input instead
succeeds, so its full fifteen-pair connection sequence runs without error. -/
theorem c4_single_input_conflict :
    (∀ (g : BGraph) (o i : BPort), i.multi = false → o.ty = i.ty →
        inputConnected g i = true →
        connectPorts g o i = (g, some ConnErr.portAlreadyConnected))
      ∧ (connectAll noteStart noteConnSeq).2 = none := by
  constructor
  · intro g o i hm hty hc
    simp [connectPorts, hty, hm, hc]
  · decide

/-- Witness for C4 amended: a second connection into an occupied
single-channel input of matching type fails with PortAlreadyConnectedError. -/
theorem c4_single_input_conflict_witness :
    connectPorts
        ⟨["a", "b", "c"], [(⟨"a", "out", "T", false⟩, ⟨"b", "inp", "T", false⟩)]⟩
        ⟨"c", "out", "T", false⟩ ⟨"b", "inp", "T", false⟩
      = (⟨["a", "b", "c"], [(⟨"a", "out", "T", false⟩, ⟨"b", "inp", "T", false⟩)]⟩,
         some ConnErr.portAlreadyConnected) :=
  c4_single_input_conflict.1 _ _ _ rfl rfl (by decide)

/-- C6: the check pass hands back the graph it was given unchanged, and when
the graph has several independent violations a single call reports one
aggregated ValidationError enumerating every violation found, not only the
first. -/
theorem c6_check_aggregates :
    ∀ g : VGraph,
      (checkGraph g).1 = g
        ∧ (∀ e, (checkGraph g).2 = some e → e.found = violations g)
        ∧ (∀ e, (checkGraph g).2 = some e → ∀ v ∈ violations g, v ∈ e.found)
        ∧ (violations g ≠ [] → ∃ e, (checkGraph g).2 = some e)
        ∧ (violations g = [] → (checkGraph g).2 = none) := by
  intro g
  by_cases h : violations g = []
  · refine ⟨by simp [checkGraph, h], ?_, ?_, by simp [h], by simp [checkGraph, h]⟩
    · intro e he
      simp [checkGraph, h] at he
    · intro e he
      simp [checkGraph, h] at he
  · refine ⟨by simp [checkGraph, h], ?_, ?_, ?_, by simp [h]⟩
    · intro e he
      simp [checkGraph, h] at he
      simp [← he]
    · intro e he v hv
      simp [checkGraph, h] at he
      simp [← he, hv]
    · exact fun _ => ⟨⟨violations g⟩, by simp [checkGraph, h]⟩

/-- Witness for C6 on the two-violation graph: one call returns the graph
unchanged together with one error whose list holds both the unbound
parameter of node alpha and the unconnected input of node beta. -/
theorem c6_check_aggregates_witness :
    (checkGraph cSixGraph).1 = cSixGraph
      ∧ (checkGraph cSixGraph).2 = some ⟨violations cSixGraph⟩
      ∧ Violation.unboundParam "alpha" "p"
          ∈ (ValidationError.mk (violations cSixGraph)).found
      ∧ Violation.unconnectedInput "beta" "inp"
          ∈ (ValidationError.mk (violations cSixGraph)).found := by
  refine ⟨(c6_check_aggregates cSixGraph).1, by decide, ?_, ?_⟩
  · exact (c6_check_aggregates cSixGraph).2.2.1 ⟨violations cSixGraph⟩ (by decide) _ (by decide)
  · exact (c6_check_aggregates cSixGraph).2.2.1 ⟨violations cSixGraph⟩ (by decide) _ (by decide)

/-- C9: the notebook TagSorter predicate list (rmsd below 6.0, rmsd at least
6.0) is exhaustive and mutually exclusive: every item carrying a numeric
rmsd tag satisfies exactly one of the two predicates, so the router never
takes its drop branch at the sort node and records no warning. -/
theorem c9_sorter_exhaustive :
    ∀ (tags : List (String × ℚ)) (q : ℚ), tags.lookup "rmsd" = some q →
      ((evalTagPred ⟨"rmsd", TagCmp.lt, 6⟩ tags = true
          ∧ evalTagPred ⟨"rmsd", TagCmp.ge, 6⟩ tags = false)
        ∨ (evalTagPred ⟨"rmsd", TagCmp.lt, 6⟩ tags = false
          ∧ evalTagPred ⟨"rmsd", TagCmp.ge, 6⟩ tags = true))
      ∧ route (sorterPreds.map (fun p t => evalTagPred p t)) tags ≠ none
      ∧ (routerStep (sorterPreds.map (fun p t => evalTagPred p t)) tags).2 = [] := by
  intro tags q hq
  rcases lt_or_le q 6 with hlt | hge
  · have e1 : evalTagPred ⟨"rmsd", TagCmp.lt, 6⟩ tags = true := by
      simp [evalTagPred, hq, hlt]
    have e2 : evalTagPred ⟨"rmsd", TagCmp.ge, 6⟩ tags = false := by
      simp [evalTagPred, hq]
      linarith
    refine ⟨Or.inl ⟨e1, e2⟩, ?_, ?_⟩
    · simp [sorterPreds, route, e1]
    · simp [routerStep, sorterPreds, route, e1]
  · have e1 : evalTagPred ⟨"rmsd", TagCmp.lt, 6⟩ tags = false := by
      simp [evalTagPred, hq]
      linarith
    have e2 : evalTagPred ⟨"rmsd", TagCmp.ge, 6⟩ tags = true := by
      simp [evalTagPred, hq, hge]
    refine ⟨Or.inr ⟨e1, e2⟩, ?_, ?_⟩
    · simp [sorterPreds, route, e1, e2]
    · simp [routerStep, sorterPreds, route, e1, e2]

/-- Witness for C9 on an item whose rmsd tag is 3: the first predicate holds,
the second does not, the router result is not the drop branch, and no
warning is recorded. -/
theorem c9_sorter_exhaustive_witness :
    ((evalTagPred ⟨"rmsd", TagCmp.lt, 6⟩ [("rmsd", (3 : ℚ))] = true
        ∧ evalTagPred ⟨"rmsd", TagCmp.ge, 6⟩ [("rmsd", (3 : ℚ))] = false)
      ∨ (evalTagPred ⟨"rmsd", TagCmp.lt, 6⟩ [("rmsd", (3 : ℚ))] = false
        ∧ evalTagPred ⟨"rmsd", TagCmp.ge, 6⟩ [("rmsd", (3 : ℚ))] = true))
    ∧ route (sorterPreds.map (fun p t => evalTagPred p t)) [("rmsd", (3 : ℚ))] ≠ none
    ∧ (routerStep (sorterPreds.map (fun p t => evalTagPred p t)) [("rmsd", (3 : ℚ))]).2
        = [] :=
  c9_sorter_exhaustive [("rmsd", (3 : ℚ))] 3 (by decide)

theorem nodup_length_le (p : List ℕ) (N : ℕ) (hnd : p.Nodup)
    (hlt : ∀ x ∈ p, x < N) : p.length ≤ N := by
  have hsub : p.toFinset ⊆ Finset.range N := by
    intro x hx
    exact Finset.mem_range.mpr (hlt x (List.mem_toFinset.mp hx))
  have hcard := Finset.card_le_card hsub
  rwa [List.toFinset_card_of_nodup hnd, Finset.card_range] at hcard

theorem checkE_edge_lt (g : EGraph) (hchk : checkE g = true) {m n : ℕ}
    (h : (m, n) ∈ g.edges) : m < g.numNodes ∧ n < g.numNodes := by
  have hchk' := hchk
  simp only [checkE, Bool.and_eq_true] at hchk'
  have := List.all_eq_true.mp hchk'.1 _ h
  simpa using this

theorem bad_pred (g : EGraph) (hchk : checkE g = true) {n : ℕ}
    (hn : n < g.numNodes) (hbad : ¬ Exits g n) :
    ∃ m, (m, n) ∈ g.edges ∧ ¬ Exits g m ∧ m < g.numNodes := by
  have hself : n ∉ g.selfTerm := fun hm => hbad (Exits.bounded hm)
  have hchk' := hchk
  simp only [checkE, Bool.and_eq_true] at hchk'
  have hcn := List.all_eq_true.mp hchk'.2 n (List.mem_range.mpr hn)
  have hpred : hasPred g n = true := by
    rw [Bool.or_eq_true] at hcn
    rcases hcn with h | h
    · exact absurd (by simpa using h) hself
    · exact h
  have hex : ∃ m, (m, n) ∈ g.edges := by
    simp only [hasPred, List.any_eq_true] at hpred
    obtain ⟨⟨m, n'⟩, he, heq⟩ := hpred
    have : n' = n := by simpa using heq
    subst this
    exact ⟨m, he⟩
  by_contra hno
  push_neg at hno
  have hall : ∀ m, (m, n) ∈ g.edges → Exits g m := by
    intro m hm
    by_contra hmbad
    exact hmbad (by_contra fun hc => absurd ((checkE_edge_lt g hchk hm).1)
      (by simpa using hno m hm hc))
  exact hbad (Exits.upstream hex hall)

theorem chain_pred {R : ℕ → ℕ → Prop} :
    ∀ (l : List ℕ) (a n : ℕ), List.Chain R a l → n ∈ l →
      ∃ m, m ∈ a :: l ∧ R m n := by
  intro l
  induction l with
  | nil => simp
  | cons b t ih =>
    intro a n hch hn
    obtain ⟨hab, hbt⟩ := List.chain_cons.mp hch
    rcases List.mem_cons.mp hn with rfl | hn'
    · exact ⟨a, by simp, hab⟩
    · obtain ⟨m, hm, hmn⟩ := ih b n hbt hn'
      refine ⟨m, ?_, hmn⟩
      simp only [List.mem_cons] at hm ⊢
      tauto

theorem cycle_pred (g : EGraph) (c : List ℕ) (hcyc : IsCycle g c) (n : ℕ)
    (hn : n ∈ c) : ∃ m, m ∈ c ∧ (m, n) ∈ g.edges := by
  cases c with
  | nil => exact absurd hn (by simp)
  | cons a l =>
    obtain ⟨hch, hwrap⟩ := hcyc
    rcases List.mem_cons.mp hn with hna | hn'
    · refine ⟨(a :: l).getLast (List.cons_ne_nil a l), List.getLast_mem _, ?_⟩
      rw [hna]
      exact hwrap
    · obtain ⟨m, hm, hmn⟩ := chain_pred l a n hch hn'
      exact ⟨m, hm, hmn⟩

theorem exits_not_in_bad_cycle (g : EGraph) (c : List ℕ) (hcyc : IsCycle g c)
    (hbadc : ∀ x ∈ c, x ∉ g.selfTerm) : ∀ n, Exits g n → n ∉ c := by
  intro n hex
  induction hex with
  | bounded h =>
    intro hn
    exact hbadc _ hn h
  | upstream hexm hall ih =>
    intro hn
    obtain ⟨m, hmc, hmn⟩ := cycle_pred g c hcyc _ hn
    exact ih m hmn hmc

theorem chain_truncate {R : ℕ → ℕ → Prop} :
    ∀ (l : List ℕ) (a m : ℕ), List.Chain R a l → m ∈ a :: l →
      ∃ l', List.Chain R a l'
        ∧ (a :: l').getLast (List.cons_ne_nil a l') = m
        ∧ ∀ x ∈ a :: l', x ∈ a :: l := by
  intro l
  induction l with
  | nil =>
    intro a m _ hm
    have : m = a := by simpa using hm
    subst this
    exact ⟨[], List.Chain.nil, rfl, by simp⟩
  | cons b t ih =>
    intro a m hch hm
    rcases List.mem_cons.mp hm with rfl | hm'
    · exact ⟨[], List.Chain.nil, rfl, by simp⟩
    · obtain ⟨hab, hbt⟩ := List.chain_cons.mp hch
      obtain ⟨l'', hch'', hlast'', hsub''⟩ := ih b m hbt hm'
      refine ⟨b :: l'', List.chain_cons.mpr ⟨hab, hch''⟩, ?_, ?_⟩
      · rw [List.getLast_cons (List.cons_ne_nil b l'')]
        exact hlast''
      · intro x hx
        rcases List.mem_cons.mp hx with rfl | hx'
        · simp
        · have := hsub'' x hx'
          simp only [List.mem_cons] at this ⊢
          tauto

theorem no_bad_path (g : EGraph) (hchk : checkE g = true)
    (hecb : EveryCycleBounded g) :
    ∀ (k : ℕ) (a : ℕ) (l : List ℕ),
      g.numNodes + 1 - (a :: l).length ≤ k →
      List.Chain (fun x y => (x, y) ∈ g.edges) a l →
      (a :: l).Nodup →
      (∀ x ∈ a :: l, ¬ Exits g x ∧ x < g.numNodes) →
      False := by
  intro k
  induction k with
  | zero =>
    intro a l hk _ hnd hbad
    have hlen := nodup_length_le (a :: l) g.numNodes hnd (fun x hx => (hbad x hx).2)
    simp only [List.length_cons] at hk hlen
    omega
  | succ k ih =>
    intro a l hk hch hnd hbad
    obtain ⟨m, hmn, hmbad, hmlt⟩ :=
      bad_pred g hchk (hbad a (by simp)).2 (hbad a (by simp)).1
    by_cases hm : m ∈ a :: l
    · obtain ⟨l', hch', hlast', hsub'⟩ := chain_truncate l a m hch hm
      have hcyc : IsCycle g (a :: l') := ⟨hch', by rw [hlast']; exact hmn⟩
      obtain ⟨x, hxc, hxterm⟩ := hecb (a :: l') hcyc
      exact (hbad x (hsub' x hxc)).1 (Exits.bounded hxterm)
    · refine ih m (a :: l) ?_ (List.Chain.cons hmn hch)
        (List.nodup_cons.mpr ⟨hm, hnd⟩) ?_
      · simp only [List.length_cons] at hk ⊢
        omega
      · intro x hx
        rcases List.mem_cons.mp hx with rfl | hx'
        · exact ⟨hmbad, hmlt⟩
        · exact hbad x hx'

theorem terminates_iff_ecb (g : EGraph) (hchk : checkE g = true) :
    Terminates g ↔ EveryCycleBounded g := by
  constructor
  · intro hterm c hcyc
    by_contra hno
    push_neg at hno
    cases c with
    | nil => exact hcyc
    | cons a l =>
      have ha : a < g.numNodes := by
        obtain ⟨m, _, hmn⟩ := cycle_pred g (a :: l) hcyc a (by simp)
        exact (checkE_edge_lt g hchk hmn).2
      have hnotin := exits_not_in_bad_cycle g (a :: l) hcyc
        (fun x hx hxt => hno x hx hxt) a (hterm a ha)
      exact hnotin (by simp)
  · intro hecb n hn
    by_contra hbad
    refine no_bad_path g hchk hecb g.numNodes n [] ?_ List.Chain.nil (by simp) ?_
    · simp
    · intro x hx
      have : x = n := by simpa using hx
      subst this
      exact ⟨hbad, hn⟩

theorem exitsIter_sound (g : EGraph) :
    ∀ (k : ℕ) (n : ℕ), n ∈ exitsIter g k → Exits g n := by
  intro k
  induction k with
  | zero =>
    intro n hn
    exact Exits.bounded hn
  | succ k ih =>
    intro n hn
    rcases List.mem_append.mp hn with h | h
    · exact ih n h
    · rw [List.mem_filter] at h
      obtain ⟨_, hcond⟩ := h
      simp only [Bool.and_eq_true] at hcond
      obtain ⟨⟨_, hpred⟩, hall⟩ := hcond
      refine Exits.upstream ?_ ?_
      · simp only [hasPred, List.any_eq_true] at hpred
        obtain ⟨⟨m, n'⟩, he, heq⟩ := hpred
        have : n' = n := by simpa using heq
        subst this
        exact ⟨m, he⟩
      · intro m hm
        have hmem : (m, n) ∈ g.edges.filter (fun e => e.2 == n) :=
          List.mem_filter.mpr ⟨hm, by simp⟩
        have hc := List.all_eq_true.mp hall _ hmem
        exact ih m (by simpa using hc)

theorem terminates_of_iter (g : EGraph) (k : ℕ)
    (h : ((List.range g.numNodes).all (fun n => (exitsIter g k).contains n)) = true) :
    Terminates g := by
  intro n hn
  have hc := List.all_eq_true.mp h n (List.mem_range.mpr hn)
  exact exitsIter_sound g k n (by simpa using hc)

/-- C1: for every graph passing the check pass, execution terminates (every
execution context exits rather than blocking forever) exactly when every
cycle of the graph passes through a node with an internally bounded
iteration count; in particular the notebook graph passes check, its feedback
cycle is a cycle of the graph containing the ReInvent node (node 0), that
node is internally bounded by the notebook's max_epoch parameter, and the
notebook's execution terminates. -/
theorem c1_termination_iff :
    (∀ g : EGraph, checkE g = true → (Terminates g ↔ EveryCycleBounded g))
      ∧ checkE noteEGraph = true
      ∧ IsCycle noteEGraph noteCycle
      ∧ (0 : ℕ) ∈ noteCycle
      ∧ (0 : ℕ) ∈ noteEGraph.selfTerm
      ∧ Terminates noteEGraph := by
  have hch : List.Chain (fun x y => (x, y) ∈ noteEGraph.edges) 0
      [1, 2, 3, 6, 7, 8, 11, 12, 13] := by
    repeat
      first
        | exact List.Chain.nil
        | refine List.Chain.cons (by decide) ?_
  refine ⟨fun g h => terminates_iff_ecb g h, by decide, ⟨hch, by decide⟩,
    by decide, by decide, terminates_of_iter noteEGraph 14 (by decide)⟩

/-- Witness for C1 on the one-node graph whose only node is a bounded
run-once node: it passes check and the equivalence applies to it. -/
theorem c1_termination_iff_witness :
    checkE ⟨1, [], [0]⟩ = true
      ∧ (Terminates ⟨1, [], [0]⟩ ↔ EveryCycleBounded ⟨1, [], [0]⟩) :=
  ⟨by decide, c1_termination_iff.1 ⟨1, [], [0]⟩ (by decide)⟩

/-- C10: the notebook respects the graph lifecycle order at every step: all
node additions and port connections come before every parameter binding,
every parameter binding comes before the single check call, and the check
call comes before the single execute call, so nothing mutates the graph
after check has run. -/
theorem c10_notebook_lifecycle :
    nondecreasing (notebookEvents.map phase) = true
      ∧ notebookEvents.countP (fun e => decide (e = NEvent.checkCall)) = 1
      ∧ notebookEvents.countP (fun e => decide (e = NEvent.executeCall)) = 1 := by
  decide

end MaizeSpec
